import Mathlib

/-!
Verification of the voice2text audio pipeline (src/rust/src/microphone.rs and
src/rust/src/transcription.rs) against its natural-language specification.

Modelling conventions:
* Machine `f32` samples, amplitudes and wall-clock instants are embedded as
  exact rationals (`ℚ`); float rounding is abstracted to exact arithmetic.
  The one behavioural subtlety of `f32` that matters to the segmenter is the
  empty-chunk case, where the Rust code computes `0.0 / 0.0 = NaN` and every
  comparison `NaN > 0.01` is false; the rational model gives `0 / 0 = 0`, and
  `0 > 1/100` is likewise false, so the model takes exactly the same branch
  as the code on empty chunks.
* `cpal::SampleRate` and `cpal::ChannelCount` are embedded as `ℕ`.
* `std::time::Instant` is embedded as a rational time-in-seconds; the
  callback receives the current instant `now` as an explicit argument, and
  `last_activity.elapsed()` becomes `now - lastActivity`.
* Byte strings are embedded as `List ℕ` with each element a byte value.
-/

namespace Voice2Text

/-- Embeds `AudioChunk` from microphone.rs: `data: Vec<f32>`,
`channels: ChannelCount`, `sample_rate: SampleRate`. -/
structure AudioChunk where
  data : List ℚ
  channels : ℕ
  sampleRate : ℕ
  deriving DecidableEq

/-- Embeds `ActiveMicrophoneState` from microphone.rs: `activity_started`,
`last_activity` (both `Instant`, modelled as rational seconds),
`data_so_far: Vec<f32>`, `sample_rate: SampleRate`. -/
structure ActiveState where
  activityStarted : ℚ
  lastActivity : ℚ
  dataSoFar : List ℚ
  sampleRate : ℕ
  deriving DecidableEq

/-- Embeds the `MicrophoneState` enum from microphone.rs. -/
inductive MicState where
  | disabled : MicState
  | waitingForPushToTalk : MicState
  | pushToTalkActivated : ActiveState → MicState
  | waitingForVoiceActivity : MicState
  | voiceActivated : ActiveState → MicState
  deriving DecidableEq

/-- Embeds the amplitude computation at the top of `process_input_data_f32`:
`data.iter().map(|&s| s.abs()).sum::<f32>() / data.len() as f32`. -/
def amplitude (data : List ℚ) : ℚ :=
  (data.map (fun x => |x|)).sum / (data.length : ℚ)

/-- Embeds the audio-levels update in `process_input_data_f32`:
`levels.push(amplitude); if levels.len() > 100 { levels.remove(0); }`. -/
def updateLevels (levels : List ℚ) (amp : ℚ) : List ℚ :=
  let pushed := levels ++ [amp]
  if 100 < pushed.length then pushed.drop 1 else pushed

/-- Embeds the state-transition match of `process_input_data_f32` in
microphone.rs (the function additionally updates the audio-levels buffer,
modelled separately by `updateLevels`, and sends any emitted chunk on the
transcription channel, modelled here as the `Option AudioChunk` component of
the result).  `channelCount` and `sampleRate` are the callback captures of
the device channel count and negotiated sample rate; `now` is the current
instant; `data` is the callback buffer. -/
def processStep (channelCount sampleRate : ℕ) (now : ℚ) (data : List ℚ)
    (st : MicState) : MicState × Option AudioChunk :=
  match st with
  | .disabled => (.disabled, none)
  | .waitingForVoiceActivity =>
      if amplitude data > 1/100 then
        (.voiceActivated ⟨now, now, data, sampleRate⟩, none)
      else
        (.waitingForVoiceActivity, none)
  | .voiceActivated a =>
      if amplitude data > 1/100 then
        (.voiceActivated { a with lastActivity := now,
                                  dataSoFar := a.dataSoFar ++ data }, none)
      else if now - a.lastActivity > 1 then
        (.waitingForVoiceActivity, some ⟨a.dataSoFar, channelCount, a.sampleRate⟩)
      else
        (.voiceActivated { a with dataSoFar := a.dataSoFar ++ data }, none)
  | .waitingForPushToTalk => (.waitingForPushToTalk, none)
  | .pushToTalkActivated a => (.pushToTalkActivated a, none)

/-- Runs `processStep` over a finite sequence of raw chunks, each tagged
with its arrival instant, collecting every emitted batch chunk in order. -/
def processSeq (channelCount sampleRate : ℕ) (chunks : List (ℚ × List ℚ))
    (st : MicState) : MicState × List AudioChunk :=
  match chunks with
  | [] => (st, [])
  | (now, data) :: rest =>
      let step := processStep channelCount sampleRate now data st
      let tail := processSeq channelCount sampleRate rest step.1
      (tail.1, step.2.toList ++ tail.2)

/-- Mirrors Rust `slice::chunks(n)`: splits a list into consecutive runs of
`n` elements, the last run possibly shorter (never empty). -/
def chunkList (n : ℕ) (l : List ℚ) : List (List ℚ) :=
  if h1 : l = [] then []
  else if h2 : n = 0 then [l]
  else l.take n :: chunkList n (l.drop n)
termination_by l.length
decreasing_by
  simp only [List.length_drop]
  have hl : 0 < l.length := List.length_pos.mpr h1
  omega

/-- Embeds the channel-mixing stage of `AudioChunk::downmix` (microphone.rs
lines 89-99): when `channels > 1`, each run of `channels` consecutive samples
is replaced by its sum divided by the channel count, and the channel count
becomes 1; otherwise the chunk is returned unchanged. -/
def downmixStep (c : AudioChunk) : AudioChunk :=
  if 1 < c.channels then
    { data := (chunkList c.channels c.data).map
        (fun frame => frame.sum / (c.channels : ℚ)),
      channels := 1,
      sampleRate := c.sampleRate }
  else c

/-- Embeds the resampler feeding pattern of the resample branch of
`AudioChunk::downmix`: the source makes exactly one
`resampler.process(&[self.data], None)` call, passing the entire (mono)
sample buffer as the single input buffer of a single call.  The value is
the list of per-call input buffers, in call order. -/
def resamplerFeed (data : List ℚ) : List (List ℚ) := [data]

/-- Modelled from the spec (for comparison with `resamplerFeed`): the spec
claims the samples are fed to the resampler in consecutive 441-sample
chunks, the final chunk zero-padded to 441 when shorter. -/
def resamplerFeedSpec (data : List ℚ) : List (List ℚ) :=
  (chunkList 441 data).map (fun c => c ++ List.replicate (441 - c.length) 0)

/-- Little-endian byte encoding of a 16-bit unsigned value (modulo 2^16). -/
def u16le (x : ℕ) : List ℕ := [x % 256, x / 256 % 256]

/-- Little-endian byte encoding of a 32-bit unsigned value (modulo 2^32). -/
def u32le (x : ℕ) : List ℕ :=
  [x % 256, x / 256 % 256, x / 65536 % 256, x / 16777216 % 256]

/-- Embeds the per-sample conversion in `generate_wav_data` of
transcription.rs: multiply by `i16::MAX = 32767`, then cast to `i16` with
Rust float-to-integer `as` semantics (truncate toward zero, saturate to the
i16 range). -/
def quantizeI16 (x : ℚ) : ℤ :=
  max (-32768) (min 32767 (if 0 ≤ x then ⌊x * 32767⌋ else ⌈x * 32767⌉))

/-- Two-byte little-endian encoding of an i16 value in two's complement. -/
def i16le (v : ℤ) : List ℕ := u16le (v % 65536).toNat

/-- Byte encoding of the WAV sample payload: each float sample quantized to
i16 and written as two little-endian bytes, in order. -/
def samplesBytes : List ℚ → List ℕ
  | [] => []
  | x :: rest => i16le (quantizeI16 x) ++ samplesBytes rest

/-- Embeds `generate_wav_data` from transcription.rs: the hound writer with
spec channels=1, sample_rate=44100, bits_per_sample=16, integer format
produces a 44-byte RIFF/fmt/data header followed by the 16-bit samples. -/
def generate_wav_data (samples : List ℚ) : List ℕ :=
  [82, 73, 70, 70] ++ u32le (36 + 2 * samples.length)
    ++ [87, 65, 86, 69]
    ++ [102, 109, 116, 32] ++ u32le 16
    ++ u16le 1 ++ u16le 1
    ++ u32le 44100 ++ u32le 88200
    ++ u16le 2 ++ u16le 16
    ++ [100, 97, 116, 97] ++ u32le (2 * samples.length)
    ++ samplesBytes samples

/-- Embeds the request-body construction of `send_audio_for_transcription`
in transcription.rs: the 4-byte little-endian sample rate, then the 2-byte
little-endian channel count, then the WAV bytes. -/
def send_body (sampleRate channels : ℕ) (samples : List ℚ) : List ℕ :=
  u32le sampleRate ++ u16le channels ++ generate_wav_data samples

/-- Embeds the Content-Type header value of the POST issued by
`send_audio_for_transcription` in transcription.rs. -/
def send_content_type : String := "audio/wav"

/-- Embeds `list_microphones` from microphone.rs.  The host device list is
modelled as a list of `Option String`: the result of `device.name()`, with
`none` for a device whose name cannot be read.  The source maps
`device.name().unwrap_or_default()` over the devices, so an unreadable name
becomes the empty string. -/
def list_microphones (devices : List (Option String)) : List String :=
  devices.map (fun d => d.getD "")

/-- Embeds the device-naming loop of the microphone initialization in
microphone.rs, which enumerates devices with their index `i` and uses
`device.name().unwrap_or_else` with the synthetic name `Unknown-i`; the
enumeration index is threaded explicitly. -/
def micNamesFrom (i : ℕ) : List (Option String) → List String
  | [] => []
  | d :: rest => d.getD ("Unknown-" ++ toString i) :: micNamesFrom (i + 1) rest

/-- Device names as computed by the microphone initialization loop,
starting the enumeration at index 0. -/
def initMicNames (devices : List (Option String)) : List String :=
  micNamesFrom 0 devices

/-! ## Segmenter theorems -/

/-- C2 (confirmed): in state VoiceActivated, on a silent chunk
(amplitude at most 0.01): if strictly more than one second has elapsed since
the last activity, a batch chunk is emitted carrying exactly the accumulated
samples (the closing silent chunk is not appended), the sample rate recorded
at utterance start and the device channel count, and the state becomes
WaitingForVoiceActivity; otherwise (including at exactly one second) the
chunk samples are appended and the state stays VoiceActivated. -/
theorem silent_chunk_step (cc sr : ℕ) (now : ℚ) (data : List ℚ)
    (a : ActiveState) (hsil : amplitude data ≤ 1/100) :
    (1 < now - a.lastActivity →
      processStep cc sr now data (.voiceActivated a)
        = (.waitingForVoiceActivity, some ⟨a.dataSoFar, cc, a.sampleRate⟩))
    ∧ (now - a.lastActivity ≤ 1 →
      processStep cc sr now data (.voiceActivated a)
        = (.voiceActivated { a with dataSoFar := a.dataSoFar ++ data }, none)) := by
  have h1 : ¬ amplitude data > 1/100 := not_lt.mpr hsil
  constructor
  · intro h2
    simp only [processStep]
    rw [if_neg h1, if_pos h2]
  · intro h2
    simp only [processStep]
    rw [if_neg h1, if_neg (not_lt.mpr h2)]

/-- Witness for `silent_chunk_step` at a concrete input. -/
theorem silent_chunk_step_witness :
    amplitude [] ≤ 1/100
    ∧ processStep 1 48000 2 [] (.voiceActivated ⟨0, 0, [1], 48000⟩)
        = (.waitingForVoiceActivity, some ⟨[1], 1, 48000⟩) :=
  ⟨by norm_num [amplitude],
   (silent_chunk_step 1 48000 2 [] ⟨0, 0, [1], 48000⟩
     (by norm_num [amplitude])).1 (by norm_num)⟩

/-- C3 (confirmed): for a non-empty raw chunk, the segmenter in
WaitingForVoiceActivity activates exactly when the arithmetic mean of the
absolute sample values is strictly greater than 0.01, and a chunk whose mean
is exactly 0.01 leaves the state unchanged with nothing emitted. -/
theorem activity_threshold_iff (cc sr : ℕ) (now : ℚ) (data : List ℚ)
    (hne : data ≠ []) :
    ((processStep cc sr now data .waitingForVoiceActivity).1
        = MicState.voiceActivated ⟨now, now, data, sr⟩
      ↔ (data.map (fun x => |x|)).sum / (data.length : ℚ) > 1/100)
    ∧ ((data.map (fun x => |x|)).sum / (data.length : ℚ) = 1/100 →
        processStep cc sr now data .waitingForVoiceActivity
          = (.waitingForVoiceActivity, none)) := by
  by_cases hc : amplitude data > 1/100
  · have hstep : processStep cc sr now data .waitingForVoiceActivity
        = (.voiceActivated ⟨now, now, data, sr⟩, none) := by
      simp only [processStep]
      rw [if_pos hc]
    refine ⟨iff_of_true (by rw [hstep]) hc, fun h => ?_⟩
    have hc2 : (data.map (fun x => |x|)).sum / (data.length : ℚ) > 1/100 := hc
    rw [h] at hc2
    exact absurd hc2 (lt_irrefl _)
  · have hstep : processStep cc sr now data .waitingForVoiceActivity
        = (.waitingForVoiceActivity, none) := by
      simp only [processStep]
      rw [if_neg hc]
    refine ⟨iff_of_false ?_ hc, fun _ => hstep⟩
    rw [hstep]
    exact fun h => MicState.noConfusion h

/-- Witness for `activity_threshold_iff` at a concrete input. -/
theorem activity_threshold_iff_witness :
    ([1] : List ℚ) ≠ []
    ∧ ((processStep 1 48000 0 [1] .waitingForVoiceActivity).1
          = MicState.voiceActivated ⟨0, 0, [1], 48000⟩
        ↔ (([1] : List ℚ).map (fun x => |x|)).sum
            / ((([1] : List ℚ).length) : ℚ) > 1/100) :=
  ⟨by simp, (activity_threshold_iff 1 48000 0 [1] (by simp)).1⟩

/-- C5 counterexample: an empty raw chunk is not discarded by the code.
In VoiceActivated with more than one second since the last activity, an
empty chunk makes the segmenter emit a batch chunk and change state,
contradicting the claim that the state is left unchanged and nothing is
emitted in every state. -/
theorem empty_chunk_claim_refuted :
    (processStep 1 48000 2 [] (.voiceActivated ⟨0, 0, [1], 48000⟩)).2 ≠ none
    ∧ (processStep 1 48000 2 [] (.voiceActivated ⟨0, 0, [1], 48000⟩)).1
        ≠ .voiceActivated ⟨0, 0, [1], 48000⟩ := by
  have hstep : processStep 1 48000 2 [] (.voiceActivated ⟨0, 0, [1], 48000⟩)
      = (.waitingForVoiceActivity, some ⟨[1], 1, 48000⟩) := by
    norm_num [processStep, amplitude]
  rw [hstep]
  exact ⟨fun h => Option.noConfusion h, fun h => MicState.noConfusion h⟩

/-- C5 (corrected): an empty chunk always takes the silent branch (in the
code its amplitude is NaN and the activity comparison is false).  In
Disabled, WaitingForVoiceActivity and the push-to-talk states the state is
unchanged and nothing is emitted; in VoiceActivated the empty chunk behaves
like any silent chunk: past the one-second deadline the accumulated batch is
emitted and the state returns to WaitingForVoiceActivity, otherwise the
state is unchanged (appending the empty chunk adds nothing). -/
theorem empty_chunk_step (cc sr : ℕ) (now : ℚ) (a : ActiveState) :
    processStep cc sr now [] .disabled = (.disabled, none)
    ∧ processStep cc sr now [] .waitingForVoiceActivity
        = (.waitingForVoiceActivity, none)
    ∧ processStep cc sr now [] .waitingForPushToTalk
        = (.waitingForPushToTalk, none)
    ∧ processStep cc sr now [] (.pushToTalkActivated a)
        = (.pushToTalkActivated a, none)
    ∧ (1 < now - a.lastActivity →
        processStep cc sr now [] (.voiceActivated a)
          = (.waitingForVoiceActivity, some ⟨a.dataSoFar, cc, a.sampleRate⟩))
    ∧ (now - a.lastActivity ≤ 1 →
        processStep cc sr now [] (.voiceActivated a)
          = (.voiceActivated a, none)) := by
  have hno : ¬ amplitude [] > 1/100 := by norm_num [amplitude]
  refine ⟨rfl, ?_, rfl, rfl, fun h => ?_, fun h => ?_⟩
  · simp only [processStep]
    rw [if_neg hno]
  · simp only [processStep]
    rw [if_neg hno, if_pos h]
  · simp only [processStep]
    rw [if_neg hno, if_neg (not_lt.mpr h)]
    simp

/-- Witness for `empty_chunk_step` at a concrete input. -/
theorem empty_chunk_step_witness :
    processStep 1 48000 2 [] (.voiceActivated ⟨0, 0, [1], 48000⟩)
      = (.waitingForVoiceActivity, some ⟨[1], 1, 48000⟩) :=
  (empty_chunk_step 1 48000 2 ⟨0, 0, [1], 48000⟩).2.2.2.2.1 (by norm_num)

/-- Helper for C6: a run of silent chunks from WaitingForVoiceActivity
emits nothing and ends in WaitingForVoiceActivity. -/
lemma processSeq_silent_aux (cc sr : ℕ) :
    ∀ chunks : List (ℚ × List ℚ), (∀ p ∈ chunks, amplitude p.2 ≤ 1/100) →
      processSeq cc sr chunks .waitingForVoiceActivity
        = (.waitingForVoiceActivity, []) := by
  intro chunks
  induction chunks with
  | nil => intro _; rfl
  | cons hd tl ih =>
    intro h
    obtain ⟨now, data⟩ := hd
    have h1 : ¬ amplitude data > 1/100 :=
      not_lt.mpr (h (now, data) (List.mem_cons_self ..))
    have h2 := ih (fun p hp => h p (List.mem_cons_of_mem _ hp))
    have hstep : processStep cc sr now data .waitingForVoiceActivity
        = (.waitingForVoiceActivity, none) := by
      simp only [processStep]
      rw [if_neg h1]
    simp only [processSeq]
    rw [hstep]
    simp [h2]

/-- C6 (confirmed): starting from WaitingForVoiceActivity, for every finite
sequence of raw chunks none of which has mean absolute amplitude exceeding
0.01, every prefix of the run emits zero batch chunks and leaves the state
at WaitingForVoiceActivity. -/
theorem silent_stream_no_batches (cc sr : ℕ) (chunks : List (ℚ × List ℚ))
    (h : ∀ p ∈ chunks, amplitude p.2 ≤ 1/100) (k : ℕ) :
    processSeq cc sr (chunks.take k) .waitingForVoiceActivity
      = (.waitingForVoiceActivity, []) :=
  processSeq_silent_aux cc sr (chunks.take k)
    (fun p hp => h p (List.take_subset k chunks hp))

/-- Witness for `silent_stream_no_batches` at a concrete input. -/
theorem silent_stream_no_batches_witness :
    (∀ p ∈ ([(0, [0]), (1, [0, 0])] : List (ℚ × List ℚ)),
        amplitude p.2 ≤ 1/100)
    ∧ processSeq 1 48000 (([(0, [0]), (1, [0, 0])] : List (ℚ × List ℚ)).take 2)
        .waitingForVoiceActivity = (.waitingForVoiceActivity, []) := by
  have hsil : ∀ p ∈ ([(0, [0]), (1, [0, 0])] : List (ℚ × List ℚ)),
      amplitude p.2 ≤ 1/100 := by
    intro p hp
    simp only [List.mem_cons, List.not_mem_nil, or_false] at hp
    rcases hp with rfl | rfl <;> norm_num [amplitude]
  exact ⟨hsil, silent_stream_no_batches 1 48000 _ hsil 2⟩

/-- Helper for C9: one step preserves the invariant that an active state has
a non-empty accumulator, and any chunk it emits is non-empty. -/
lemma processStep_nonempty_inv (cc sr : ℕ) (now : ℚ) (data : List ℚ)
    (st : MicState)
    (hst : ∀ a, st = MicState.voiceActivated a → a.dataSoFar ≠ []) :
    (∀ a, (processStep cc sr now data st).1 = MicState.voiceActivated a →
        a.dataSoFar ≠ [])
    ∧ (∀ b, (processStep cc sr now data st).2 = some b → b.data ≠ []) := by
  cases st with
  | disabled =>
      exact ⟨fun a h => MicState.noConfusion h, fun b h => Option.noConfusion h⟩
  | waitingForPushToTalk =>
      exact ⟨fun a h => MicState.noConfusion h, fun b h => Option.noConfusion h⟩
  | pushToTalkActivated a0 =>
      exact ⟨fun a h => MicState.noConfusion h, fun b h => Option.noConfusion h⟩
  | waitingForVoiceActivity =>
      by_cases hc : amplitude data > 1/100
      · have hdata : data ≠ [] := by
          intro hd
          rw [hd] at hc
          norm_num [amplitude] at hc
        have hstep : processStep cc sr now data .waitingForVoiceActivity
            = (.voiceActivated ⟨now, now, data, sr⟩, none) := by
          simp only [processStep]
          rw [if_pos hc]
        rw [hstep]
        refine ⟨fun a h => ?_, fun b h => Option.noConfusion h⟩
        have ha := MicState.voiceActivated.inj h
        rw [← ha]
        exact hdata
      · have hstep : processStep cc sr now data .waitingForVoiceActivity
            = (.waitingForVoiceActivity, none) := by
          simp only [processStep]
          rw [if_neg hc]
        rw [hstep]
        exact ⟨fun a h => MicState.noConfusion h, fun b h => Option.noConfusion h⟩
  | voiceActivated a0 =>
      have ha0 : a0.dataSoFar ≠ [] := hst a0 rfl
      have hgrow : a0.dataSoFar ++ data ≠ [] := by
        intro h
        exact ha0 (List.append_eq_nil.mp h).1
      by_cases hc : amplitude data > 1/100
      · have hstep : processStep cc sr now data (.voiceActivated a0)
            = (.voiceActivated
                ⟨a0.activityStarted, now, a0.dataSoFar ++ data, a0.sampleRate⟩,
               none) := by
          simp only [processStep]
          rw [if_pos hc]
        rw [hstep]
        refine ⟨fun a h => ?_, fun b h => Option.noConfusion h⟩
        have ha := MicState.voiceActivated.inj h
        rw [← ha]
        exact hgrow
      · by_cases ht : now - a0.lastActivity > 1
        · have hstep : processStep cc sr now data (.voiceActivated a0)
              = (.waitingForVoiceActivity,
                 some ⟨a0.dataSoFar, cc, a0.sampleRate⟩) := by
            simp only [processStep]
            rw [if_neg hc, if_pos ht]
          rw [hstep]
          refine ⟨fun a h => MicState.noConfusion h, fun b h => ?_⟩
          have hb := Option.some.inj h
          rw [← hb]
          exact ha0
        · have hstep : processStep cc sr now data (.voiceActivated a0)
              = (.voiceActivated
                  ⟨a0.activityStarted, a0.lastActivity,
                   a0.dataSoFar ++ data, a0.sampleRate⟩, none) := by
            simp only [processStep]
            rw [if_neg hc, if_neg ht]
          rw [hstep]
          refine ⟨fun a h => ?_, fun b h => Option.noConfusion h⟩
          have ha := MicState.voiceActivated.inj h
          rw [← ha]
          exact hgrow

/-- Helper for C9: over a whole run, every emitted batch is non-empty. -/
lemma processSeq_nonempty (cc sr : ℕ) :
    ∀ (chunks : List (ℚ × List ℚ)) (st : MicState),
      (∀ a, st = MicState.voiceActivated a → a.dataSoFar ≠ []) →
      ∀ b ∈ (processSeq cc sr chunks st).2, b.data ≠ [] := by
  intro chunks
  induction chunks with
  | nil =>
      intro st hst b hb
      simp [processSeq] at hb
  | cons hd tl ih =>
      intro st hst b hb
      obtain ⟨now, data⟩ := hd
      have hstep := processStep_nonempty_inv cc sr now data st hst
      simp only [processSeq] at hb
      rw [List.mem_append] at hb
      rcases hb with hb | hb
      · cases hopt : (processStep cc sr now data st).2 with
        | none => rw [hopt] at hb; simp at hb
        | some c =>
            rw [hopt] at hb
            simp at hb
            rw [hb]
            exact hstep.2 c hopt
      · exact ih (processStep cc sr now data st).1 hstep.1 b hb

/-- C9 (confirmed): every batch chunk emitted by a run of the segmenter
started in WaitingForVoiceActivity has a non-empty sample sequence. -/
theorem emitted_batches_nonempty (cc sr : ℕ) (chunks : List (ℚ × List ℚ))
    (b : AudioChunk)
    (hb : b ∈ (processSeq cc sr chunks .waitingForVoiceActivity).2) :
    b.data ≠ [] :=
  processSeq_nonempty cc sr chunks .waitingForVoiceActivity
    (fun _ h => MicState.noConfusion h) b hb

/-- Witness for `emitted_batches_nonempty` at a concrete input. -/
theorem emitted_batches_nonempty_witness :
    (⟨[1], 1, 48000⟩ : AudioChunk)
      ∈ (processSeq 1 48000 [(0, [1]), (2, [])] .waitingForVoiceActivity).2
    ∧ (⟨[1], 1, 48000⟩ : AudioChunk).data ≠ [] :=
  ⟨by norm_num [processSeq, processStep, amplitude],
   emitted_batches_nonempty 1 48000 [(0, [1]), (2, [])] ⟨[1], 1, 48000⟩
     (by norm_num [processSeq, processStep, amplitude])⟩

/-- C10 (confirmed): the audio-levels update pushes exactly one amplitude
and removes the oldest entry whenever the length exceeds 100, so a buffer of
at most 100 entries stays at most 100, and from the initial length of 100
the length stays exactly 100 (oldest entry dropped, new one appended). -/
theorem audio_levels_capacity (levels : List ℚ) (amp : ℚ) :
    (levels.length ≤ 100 → (updateLevels levels amp).length ≤ 100)
    ∧ (levels.length = 100 →
        (updateLevels levels amp).length = 100
        ∧ updateLevels levels amp = levels.drop 1 ++ [amp]) := by
  constructor
  · intro h
    simp only [updateLevels]
    split
    · simp only [List.length_drop, List.length_append, List.length_singleton]
      omega
    · rename_i hle
      simp only [List.length_append, List.length_singleton] at hle ⊢
      omega
  · intro h
    have hgt : 100 < (levels ++ [amp]).length := by simp [h]
    constructor
    · simp only [updateLevels, if_pos hgt]
      simp [h]
    · simp only [updateLevels, if_pos hgt]
      rw [List.drop_append_of_le_length (by omega)]

/-- Witness for `audio_levels_capacity` at a concrete input. -/
theorem audio_levels_capacity_witness :
    (List.replicate 100 (0:ℚ)).length = 100
    ∧ (updateLevels (List.replicate 100 (0:ℚ)) (1/2)).length = 100 :=
  ⟨by simp,
   ((audio_levels_capacity (List.replicate 100 (0:ℚ)) (1/2)).2 (by simp)).1⟩

/-! ## Normalizer theorems -/

/-- Base equation of `chunkList` on the empty list. -/
lemma chunkList_nil (n : ℕ) : chunkList n [] = [] := by
  unfold chunkList
  simp

/-- Unfolding equation of `chunkList` on a non-empty list with a non-zero
chunk size. -/
lemma chunkList_cons (n : ℕ) (l : List ℚ) (h1 : l ≠ []) (h2 : n ≠ 0) :
    chunkList n l = l.take n :: chunkList n (l.drop n) := by
  conv_lhs => unfold chunkList
  rw [dif_neg h1, dif_neg h2]

/-- Closed form of `chunkList` when the chunk size divides the length:
the i-th chunk is the i-th run of n consecutive elements. -/
lemma chunkList_eq_map (n : ℕ) (hn : n ≠ 0) :
    ∀ (k : ℕ) (l : List ℚ), l.length = n * k →
      chunkList n l = (List.range k).map (fun i => (l.drop (i * n)).take n) := by
  intro k
  induction k with
  | zero =>
      intro l hl
      have h0 : l = [] := List.length_eq_zero.mp (by simpa using hl)
      rw [h0]
      simp [chunkList_nil]
  | succ k ih =>
      intro l hl
      have hpos : 0 < n := Nat.pos_of_ne_zero hn
      have hne : l ≠ [] := List.ne_nil_of_length_pos
        (by rw [hl]; exact Nat.mul_pos hpos (Nat.succ_pos k))
      rw [chunkList_cons n l hne hn]
      have hdl : (l.drop n).length = n * k := by
        rw [List.length_drop, hl, Nat.mul_succ, Nat.add_sub_cancel]
      rw [ih (l.drop n) hdl, List.range_succ_eq_map]
      simp only [List.map_cons, List.map_map, Nat.zero_mul, List.drop_zero]
      congr 1
      apply List.map_congr_left
      intro i _
      simp only [Function.comp_apply, List.drop_drop]
      have harith : n + i * n = Nat.succ i * n := by
        rw [Nat.succ_mul]
        omega
      rw [harith]

/-- C7 (confirmed): downmixing a chunk with more than one channel replaces
each frame of `channels` consecutive samples by its arithmetic mean (sum
divided by the channel count), yields output length `len / channels` and
channel count 1, and keeps the sample rate; downmixing a mono chunk is a
no-op. -/
theorem downmix_mean_frames (c : AudioChunk) :
    (c.channels = 1 → downmixStep c = c)
    ∧ (1 < c.channels → c.channels ∣ c.data.length →
        (downmixStep c).channels = 1
        ∧ (downmixStep c).sampleRate = c.sampleRate
        ∧ (downmixStep c).data.length = c.data.length / c.channels
        ∧ ∀ i, i < c.data.length / c.channels →
            (downmixStep c).data[i]? =
              some (((c.data.drop (i * c.channels)).take c.channels).sum
                / (c.channels : ℚ))) := by
  constructor
  · intro h1
    simp [downmixStep, h1]
  · intro hgt hdvd
    obtain ⟨k, hk⟩ := hdvd
    have hn : c.channels ≠ 0 := by omega
    have hkk : c.data.length / c.channels = k := by
      rw [hk]
      exact Nat.mul_div_cancel_left k (by omega)
    have hstep : downmixStep c
        = { data := (chunkList c.channels c.data).map
              (fun frame => frame.sum / (c.channels : ℚ)),
            channels := 1,
            sampleRate := c.sampleRate } := by
      simp [downmixStep, hgt]
    rw [hstep, chunkList_eq_map c.channels hn k c.data hk]
    refine ⟨rfl, rfl, by simp [hkk], ?_⟩
    intro i hi
    rw [hkk] at hi
    simp [List.getElem?_map, List.getElem?_range, hi]

/-- Witness for `downmix_mean_frames` at a concrete input. -/
theorem downmix_mean_frames_witness :
    (downmixStep ⟨[1, 3, 2, 4], 2, 48000⟩).data.length
        = ([1, 3, 2, 4] : List ℚ).length / 2
    ∧ (downmixStep ⟨[1, 3, 2, 4], 2, 48000⟩).channels = 1 := by
  have h := (downmix_mean_frames ⟨[1, 3, 2, 4], 2, 48000⟩).2
    (by norm_num) ⟨2, rfl⟩
  exact ⟨h.2.2.1, h.1⟩

/-- C4 counterexample: on an 882-sample buffer the spec-described feeding
(two consecutive 441-sample chunks) differs from what the code does (one
process call carrying the whole 882-sample buffer). -/
theorem resampler_feed_claim_refuted :
    resamplerFeed (List.replicate 882 (0:ℚ))
      ≠ resamplerFeedSpec (List.replicate 882 (0:ℚ)) := by
  intro h
  have h2 : (resamplerFeedSpec (List.replicate 882 (0:ℚ))).length = 2 := by
    unfold resamplerFeedSpec
    rw [chunkList_eq_map 441 (by norm_num) 2 (List.replicate 882 (0:ℚ))
      (by norm_num)]
    simp only [List.length_map, List.length_range]
  rw [← h] at h2
  simp only [resamplerFeed, List.length_cons, List.length_nil] at h2
  omega

/-- C4 (corrected): the resampling step creates the FFT resampler with a
nominal 441-frame buffer size but then feeds the entire sample buffer to it
in a single process call, with no chunk splitting and no zero padding: the
feed consists of exactly one buffer, and that buffer is the whole sample
sequence unchanged. -/
theorem resampler_single_call (data : List ℚ) :
    (resamplerFeed data).length = 1
    ∧ (resamplerFeed data).head? = some data
    ∧ (resamplerFeed data).flatten = data := by
  refine ⟨rfl, rfl, ?_⟩
  simp [resamplerFeed]

/-! ## Transcription client theorems -/

/-- Length of the encoded sample payload: two bytes per sample. -/
lemma samplesBytes_length (s : List ℚ) :
    (samplesBytes s).length = 2 * s.length := by
  induction s with
  | nil => rfl
  | cons x rest ih =>
      simp only [samplesBytes, i16le, u16le, List.length_append,
        List.length_cons, List.length_nil, ih]
      omega

/-- Length of the generated WAV bytes: a 44-byte header plus two bytes per
sample. -/
lemma generate_wav_data_length (s : List ℚ) :
    (generate_wav_data s).length = 44 + 2 * s.length := by
  simp only [generate_wav_data, u16le, u32le, List.length_append,
    List.length_cons, List.length_nil, samplesBytes_length]

/-- Length of the request body: 6 prefix bytes plus the WAV bytes. -/
lemma send_body_length (sr ch : ℕ) (s : List ℚ) :
    (send_body sr ch s).length = 50 + 2 * s.length := by
  simp only [send_body, u16le, u32le, List.length_append, List.length_cons,
    List.length_nil, generate_wav_data_length]
  omega

/-- C1 counterexample: for a one-sample chunk the POST does not carry
Content-Type audio/f32le and its body length is 52, not 4 times the sample
count. -/
theorem transcription_request_claim_refuted :
    send_content_type ≠ "audio/f32le"
    ∧ (send_body 16000 1 [0]).length ≠ 4 * ([0] : List ℚ).length := by
  constructor
  · decide
  · rw [send_body_length]
    simp

/-- C1 (corrected): `send_audio_for_transcription` posts with Content-Type
audio/wav, and its body is the 4-byte little-endian sample rate, the 2-byte
little-endian channel count, and a 16-bit-integer WAV encoding of the
samples with a 44-byte header, so the body length is 50 + 2 times the
sample count. -/
theorem transcription_request_format (sr ch : ℕ) (samples : List ℚ) :
    send_content_type = "audio/wav"
    ∧ (generate_wav_data samples).length = 44 + 2 * samples.length
    ∧ (send_body sr ch samples).length = 50 + 2 * samples.length
    ∧ (send_body sr ch samples).take 6 = u32le sr ++ u16le ch :=
  ⟨rfl, generate_wav_data_length samples, send_body_length sr ch samples, by
    simp [send_body, u32le, u16le]⟩

/-! ## Device enumeration theorems -/

/-- Length of the initialization naming loop output. -/
lemma micNamesFrom_length :
    ∀ (devices : List (Option String)) (j : ℕ),
      (micNamesFrom j devices).length = devices.length := by
  intro devices
  induction devices with
  | nil => intro j; rfl
  | cons d rest ih =>
      intro j
      simp [micNamesFrom, ih]

/-- Index characterization of the initialization naming loop. -/
lemma micNamesFrom_getElem? :
    ∀ (devices : List (Option String)) (j i : ℕ), i < devices.length →
      (micNamesFrom j devices)[i]?
        = some ((devices[i]?.getD none).getD
            ("Unknown-" ++ toString (j + i))) := by
  intro devices
  induction devices with
  | nil => intro j i hi; simp at hi
  | cons d rest ih =>
      intro j i hi
      cases i with
      | zero => simp [micNamesFrom]
      | succ i =>
          simp only [micNamesFrom, List.getElem?_cons_succ]
          rw [ih (j + 1) i (by simpa using hi)]
          have harith : j + 1 + i = j + (i + 1) := by omega
          rw [harith]

/-- C8 counterexample: for a single device whose name cannot be read, the
listing operation returns the empty string, while the claimed Unknown-0
synthetic name is what the initialization loop produces. -/
theorem device_names_claim_refuted :
    list_microphones [none] ≠ initMicNames [none]
    ∧ list_microphones [none] = [""]
    ∧ initMicNames [none] = ["Unknown-0"] := by
  refine ⟨by decide, rfl, by decide⟩

/-- C8 (corrected): the listing operation returns the device names in host
enumeration order with the empty string substituted for an unreadable name;
the synthetic Unknown-index name is produced by the microphone
initialization loop, not by the listing operation. -/
theorem device_names_listing (devices : List (Option String)) :
    (list_microphones devices).length = devices.length
    ∧ (initMicNames devices).length = devices.length
    ∧ ∀ i, i < devices.length →
        (list_microphones devices)[i]?
            = some ((devices[i]?.getD none).getD "")
        ∧ (initMicNames devices)[i]?
            = some ((devices[i]?.getD none).getD
                ("Unknown-" ++ toString i)) := by
  refine ⟨by simp [list_microphones], micNamesFrom_length devices 0, ?_⟩
  intro i hi
  constructor
  · simp [list_microphones, List.getElem?_map, List.getElem?_eq_getElem hi]
  · have h := micNamesFrom_getElem? devices 0 i hi
    simpa [initMicNames] using h

/-- Witness for `device_names_listing` at a concrete input. -/
theorem device_names_listing_witness :
    (list_microphones [some "A", none])[1]? = some ""
    ∧ (initMicNames [some "A", none])[1]? = some "Unknown-1" := by
  constructor
  · exact ((device_names_listing [some "A", none]).2.2 1 (by decide)).1
  · have h := ((device_names_listing [some "A", none]).2.2 1 (by decide)).2
    simpa using h

end Voice2Text
